import Mathlib

/-!
Verification of the FoilPics vault engine (src/FoilPicsModel.cpp)
against its natural-language specification, via a shallow embedding.

Conventions of the embedding:
* Qt container values (`QList`, `QStringList`) become `List`; a `QByteArray`
  cache slot is represented by its byte count (`Nat`, `0` = empty, matching
  `QByteArray::isEmpty`); `QHash` becomes an association list.
* C `int` arithmetic becomes `Int` (no overflow occurs in the embedded
  loops: all quantities are bounded by small catalog sizes).
* Cryptographic and filesystem effects (`foilmsg_decrypt_file`,
  `foil_private_key_decrypt_from_file`, image decoding, `writeThumb`'s
  output file) are oracles passed in as parameters; the control flow
  around them is translated from the source.
* File paths are opaque tokens; a file's path and its base name are
  identified, and `QFileInfo::baseName`-style title derivation is kept
  abstract at the level the claims need.
-/

namespace FoilPics

/-- The `FoilPicsModel::FoilState` enumeration. -/
inductive FoilState where
  | keyMissing
  | keyInvalid
  | keyNotEncrypted
  | locked
  | lockedTimedOut
  | decrypting
  | generatingKey
  | keyError
  | picsReady
deriving DecidableEq, Repr

/-- `FoilPicsModel::ModelData` — one catalog entry.  `bytes` is the byte
count of the `iBytes` decrypted-data slot; `decryptTask` records whether
an `iDecryptTask` is attached. -/
structure ModelData where
  origPath : String
  path : String
  fileName : String
  thumbFile : String
  title : String
  fullSize : Int × Int
  thumbSource : String
  imageSource : String
  contentType : String
  orientation : Int
  dateTime : Int
  bytes : Nat
  decryptTask : Bool
deriving DecidableEq, Repr

/-- The model roles of `FoilPicsModel::ModelData::Role`. -/
inductive Role where
  | url
  | thumbnail
  | decryptedData
  | orientation
  | mimeType
  | title
  | fileName
  | imageWidth
  | imageHeight
deriving DecidableEq, Repr

/-- A `QVariant` value as produced by `ModelData::get`. -/
inductive Variant where
  | str (s : String)
  | int (i : Int)
  | bytes (n : Nat)
deriving DecidableEq, Repr

/-- `FoilPicsModel::ModelData::get`. -/
def modelDataGet (d : ModelData) : Role → Variant
  | .url => .str d.imageSource
  | .thumbnail => .str d.thumbSource
  | .decryptedData => .bytes d.bytes
  | .orientation => .int d.orientation
  | .mimeType => .str d.contentType
  | .title => .str d.title
  | .fileName => .str d.fileName
  | .imageWidth => .int d.fullSize.1
  | .imageHeight => .int d.fullSize.2

/-- Generic association-list lookup (the embedding of `QHash` lookup). -/
def lookupA {α β : Type} [DecidableEq α] : List (α × β) → α → Option β
  | [], _ => none
  | p :: rest, k => if p.1 = k then some p.2 else lookupA rest k

/-! ### C1 — cache eviction (`FoilPicsModel::Private::dropDecryptedData`) -/

/-- One iteration of the candidate-selection loop in
`FoilPicsModel::Private::dropDecryptedData`.  The state is the pair
`(indexToDrop, maxDistance)`, initialised to `(-1, -1)`.  The source
chooses the distance formula by testing `aDontTouch > indexToDrop`
(the current best candidate), exactly as in the C++:

    const int distance = (aDontTouch > indexToDrop) ?
        qMin(aDontTouch - i, i + n - aDontTouch) :
        qMin(i - aDontTouch, aDontTouch + n - i);
    if (indexToDrop < 0 || distance > maxDistance) { ... }

`sizes` is the catalog viewed as the byte count of each entry's
`iBytes` slot (`0` = empty).  `dropDistance` is the local `distance`
computation, hoisted into a named function. -/
def dropDistance (sizes : List Nat) (k : Int) (st : Int × Int) (i : Nat) : Int :=
  if k > st.1 then min (k - (i : Int)) ((i : Int) + (sizes.length : Int) - k)
  else min ((i : Int) - k) (k + (sizes.length : Int) - (i : Int))

/-- The body of the selection loop (see `dropDistance` for the distance
computation it embeds). -/
def dropScanStep (sizes : List Nat) (k : Int) (st : Int × Int) (i : Nat) : Int × Int :=
  if (i : Int) ≠ k ∧ sizes.getD i 0 ≠ 0 then
    if st.1 < 0 ∨ dropDistance sizes k st i > st.2 then
      ((i : Int), dropDistance sizes k st i)
    else st
  else st

/-- The full selection loop of `dropDecryptedData`: fold `dropScanStep`
over the catalog indices `0 .. n-1` starting from `(-1, -1)`. -/
def dropScan (sizes : List Nat) (k : Int) : Int × Int :=
  (List.range sizes.length).foldl (dropScanStep sizes k) (-1, -1)

/-- The index chosen for eviction by `dropDecryptedData` (`-1` if none). -/
def dropIndex (sizes : List Nat) (k : Int) : Int :=
  (dropScan sizes k).1

/-- `FoilPicsModel::Private::dropDecryptedData`: clear the chosen slot and
report whether anything was dropped. -/
def dropDecryptedData (sizes : List Nat) (k : Int) : List Nat × Bool :=
  let idx := dropIndex sizes k
  if 0 ≤ idx then (sizes.set idx.toNat 0, true) else (sizes, false)

/-- The circular distance of the specification:
`distance(i, k) = min((k − i) mod n, (i − k) mod n)`. -/
def circularDistance (n i k : Int) : Int :=
  min ((k - i).emod n) ((i - k).emod n)

/-- The eviction policy as worded by the specification: among populated
indices `i ≠ k`, pick the one maximizing `circularDistance`, breaking ties
in favour of the lower index (only a strictly larger distance replaces the
current candidate). -/
def specEvictee (sizes : List Nat) (k : Int) : Option Nat :=
  (List.range sizes.length).foldl
    (fun best (i : Nat) =>
      if (i : Int) ≠ k ∧ sizes.getD i 0 ≠ 0 then
        match best with
        | none => some i
        | some j =>
          if circularDistance sizes.length i k > circularDistance sizes.length j k
          then some i else best
      else best)
    none

/-! ### C2 — unlock (`FoilPicsModel::Private::unlock`) -/

/-- The observable state of the key file `foil.key`, i.e. the outcome of
probing it with `foil_private_key_decrypt_from_file`:
* `missing` — the file cannot be read (non-`FOIL_ERROR` failure);
* `invalid` — `FOIL_ERROR` other than `FOIL_ERROR_KEY_ENCRYPTED`;
* `notEncrypted` — decrypts with the `NULL` passphrase;
* `encrypted p` — passphrase-encrypted, decrypting only with `p`. -/
inductive KeyFileProbe where
  | missing
  | invalid
  | notEncrypted
  | encrypted (passphrase : String)
deriving DecidableEq, Repr

/-- `FoilPicsModel::Private::setFoilState`: assign only when different
(the branch only matters for signal queueing; the resulting value is the
requested state either way). -/
def setFoilState (st new : FoilState) : FoilState :=
  if st ≠ new then new else st

/-- `FoilPicsModel::Private::unlock`, with key decryption abstracted by
`KeyFileProbe`.  Returns the `bool` result and the foil state after the
call, given the state `st` before the call.  Mirrors the source:
not-encrypted → `KeyNotEncrypted`; encrypted and password accepted →
keys adopted, `DecryptPicsTask` submitted, state `Decrypting`, `true`;
encrypted and password rejected → state `Locked`; invalid → `KeyInvalid`;
unreadable → `KeyMissing`. -/
def unlockRun (probe : KeyFileProbe) (password : String) (st : FoilState) :
    Bool × FoilState :=
  match probe with
  | .notEncrypted => (false, setFoilState st .keyNotEncrypted)
  | .encrypted pass =>
    if password = pass then (true, setFoilState st .decrypting)
    else (false, setFoilState st .locked)
  | .invalid => (false, setFoilState st .keyInvalid)
  | .missing => (false, setFoilState st .keyMissing)

/-! ### Catalog accessors and mutators (C9, C10) -/

/-- `FoilPicsModel::Private::dataAt`: the entry at a signed index, `NULL`
outside `[0, count)`. -/
def dataAt (l : List ModelData) (i : Int) : Option ModelData :=
  if 0 ≤ i ∧ i < l.length then l.get? i.toNat else none

/-- `FoilPicsModel::get(int)`: a `QVariantMap` of all roles, empty when
`dataAt` returns `NULL`. -/
def getMap (l : List ModelData) (i : Int) : List (String × Variant) :=
  match dataAt l i with
  | none => []
  | some d =>
    [("url", modelDataGet d .url),
     ("thumbnail", modelDataGet d .thumbnail),
     ("decryptedData", modelDataGet d .decryptedData),
     ("orientation", modelDataGet d .orientation),
     ("mimeType", modelDataGet d .mimeType),
     ("title", modelDataGet d .title),
     ("fileName", modelDataGet d .fileName),
     ("imageWidth", modelDataGet d .imageWidth),
     ("imageHeight", modelDataGet d .imageHeight)]

/-- `FoilPicsModel::data(QModelIndex, role)`: `none` stands for the null
`QVariant` returned when `dataAt` is `NULL`. -/
def roleData (l : List ModelData) (i : Int) (r : Role) : Option Variant :=
  (dataAt l i).map (fun d => modelDataGet d r)

/-- `FoilPicsModel::Private::destroyItemAt` acting on the catalog and the
`iMayHaveEncryptedPictures` flag.  The guard is the source's
`aIndex >= 0 && aIndex <= iData.count()`; inside the guard the flag is
set to `false` ("We no longer have any decryptable pictures") regardless
of how many entries remain. -/
def destroyItemAt (l : List ModelData) (mayHave : Bool) (i : Int) :
    List ModelData × Bool :=
  if 0 ≤ i ∧ i ≤ l.length then (l.eraseIdx i.toNat, false) else (l, mayHave)

/-- The insertion position used by `FoilPicsModel::Private::insertModelData`:
`qLowerBound` with comparator `ModelData::lessThan` ("most recent first",
`iDateTime` descending); on a sorted catalog this is the first position
whose entry is not strictly more recent than the new one. -/
def lowerBoundPos (l : List ModelData) (d : ModelData) : Nat :=
  (l.takeWhile (fun e => d.dateTime < e.dateTime)).length

/-- `FoilPicsModel::Private::insertModelData` acting on the catalog and the
`iMayHaveEncryptedPictures` flag (which it always leaves `true`). -/
def insertModelData (l : List ModelData) (mayHave : Bool) (d : ModelData) :
    List ModelData × Bool :=
  (l.insertIdx (lowerBoundPos l d) d, true)

/-- `FoilPicsModel::Private::removeAt` restricted to its effect on the
catalog and the flag (file removal and `saveInfo` happen only in the
`dataAt ≠ NULL` branch). -/
def removeAt (l : List ModelData) (mayHave : Bool) (i : Int) :
    List ModelData × Bool :=
  match dataAt l i with
  | some _ => destroyItemAt l mayHave i
  | none => (l, mayHave)

/-- `FoilPicsModel::Private::decryptAt` restricted to its effect on the
catalog: when the index is valid and the entry has no decrypt task yet, a
`DecryptTask` is attached; otherwise nothing happens. -/
def decryptAt (l : List ModelData) (i : Int) : List ModelData :=
  match dataAt l i with
  | some d =>
    if ¬d.decryptTask then l.set i.toNat { d with decryptTask := true } else l
  | none => l

/-- A concrete catalog entry used by witnesses. -/
def sampleEntry : ModelData :=
  { origPath := "/tmp/a.png", path := "AA00", fileName := "a.png",
    thumbFile := "BB11", title := "a", fullSize := (640, 480),
    thumbSource := "", imageSource := "", contentType := "image/png",
    orientation := 0, dateTime := 5, bytes := 0, decryptTask := false }

/-! ### C5 — import (`FoilPicsModel::EncryptTask::performTask`) -/

/-- The observable outcome of one `EncryptTask::performTask` run:
the produced entry (`iData`), whether `QFile::remove(iSourceFile)` ran,
and whether `unlink(dest->str)` ran. -/
structure EncryptOutcome where
  entry : Option ModelData
  sourceDeleted : Bool
  unlinkCalled : Bool
deriving DecidableEq, Repr

/-- `FoilPicsModel::EncryptTask::performTask` with its external effects as
oracles: `mapOk` — `g_mapped_file_new` succeeded; `createOk` —
`createFoilFile` opened an output file; `decoded` — the size of the
decoded source image (`none` = `QImage::fromData` gave a null image);
`encryptOk` — `foilmsg_encrypt` of the image envelope succeeded;
`statOk` — `stat(source)` succeeded (controls the mod-time headers and
the entry's `iDateTime`); `thumbName` — the name returned by
`writeThumb` (`""` when the thumbnail write failed or the thumbnail was
null).  Everything after a successful envelope write still produces the
entry; at the end the source reads
`if (iData) { QFile::remove(iSourceFile); } else { unlink(dest->str); }`
(when `createOk` is false the `unlink` targets the last attempted,
never-created, name). -/
def encryptPerformTask (mapOk createOk encryptOk statOk : Bool)
    (decoded : Option (Int × Int)) (contentType : Option String)
    (thumbName sourceFile destPath : String)
    (orientation modTime : Int) : EncryptOutcome :=
  if mapOk then
    let entry : Option ModelData :=
      if createOk then
        match decoded with
        | some sz =>
          if encryptOk then
            some { origPath := sourceFile, path := destPath,
                   fileName := sourceFile, thumbFile := thumbName,
                   title := sourceFile, fullSize := sz,
                   thumbSource := "", imageSource := "",
                   contentType := contentType.getD "",
                   orientation := orientation,
                   dateTime := if statOk then modTime else 0,
                   bytes := 0, decryptTask := false }
          else none
        | none => none
      else none
    { entry := entry, sourceDeleted := entry.isSome,
      unlinkCalled := !entry.isSome }
  else { entry := none, sourceDeleted := false, unlinkCalled := false }

/-! ### C7 — thumbnail geometry (`FoilPicsModel::ModelData::thumbnail`) -/

/-- Pixel size of `QImage::transformed` for a rotation by `deg` degrees
(the bounding box of the rotated rectangle), modelled only for the right
angles the engine uses (`Orientation ∈ {0, 90, 180, 270}` per the data
model): a multiple of 180 keeps the size, an odd multiple of 90 swaps
width and height. -/
def rotatedBoundingSize (sz : Int × Int) (deg : Int) : Int × Int :=
  if deg.emod 180 = 0 then sz
  else if deg.emod 90 = 0 then (sz.2, sz.1) else sz

/-- The pixel size produced by `FoilPicsModel::ModelData::thumbnail`.
Both branches of the aspect-ratio comparison end in
`QImage::copy(·, ·, aSize.width(), aSize.height())`, which always returns
an image of exactly the requested size; a non-zero `aRotate` then applies
`QImage::transformed` with a rotation by `-aRotate`. -/
def modelThumbnailSize (imageSize thumbSize : Int × Int) (rotate : Int) :
    Int × Int :=
  let cropped :=
    if imageSize.1 * thumbSize.2 > thumbSize.1 * imageSize.2 then
      (thumbSize.1, thumbSize.2)
    else
      (thumbSize.1, thumbSize.2)
  if rotate ≠ 0 then rotatedBoundingSize cropped (-rotate) else cropped

/-! ### C3 — decrypted-data budget (`tooMuchDataDecrypted` / eviction loop) -/

/-- Number of catalog entries with a non-empty `iBytes` slot. -/
def popCount (sizes : List Nat) : Nat :=
  sizes.countP (fun b => decide (b ≠ 0))

/-- Total byte count of all `iBytes` slots. -/
def totalBytes (sizes : List Nat) : Nat :=
  sizes.sum

/-- The loop of `FoilPicsModel::Private::tooMuchDataDecrypted`: walk the
catalog accumulating the populated-slot count and total size, returning
`true` as soon as `count > 1 && totalSize > iMaxBytesToDecrypt`. -/
def tooMuchLoop (maxBytes : Nat) : List Nat → Nat → Nat → Bool
  | [], _, _ => false
  | b :: rest, count, total =>
    if b ≠ 0 then
      if 1 < count + 1 ∧ maxBytes < total + b then true
      else tooMuchLoop maxBytes rest (count + 1) (total + b)
    else tooMuchLoop maxBytes rest count total

/-- `FoilPicsModel::Private::tooMuchDataDecrypted`. -/
def tooMuchDataDecrypted (sizes : List Nat) (maxBytes : Nat) : Bool :=
  tooMuchLoop maxBytes sizes 0 0

/-- The eviction loop of `FoilPicsModel::Private::onImageRequestDone`:
`while (tooMuchDataDecrypted() && dropDecryptedData(index));`.  The loop
is fuel-indexed only to define it in Lean; each successful drop clears a
populated slot, so any fuel bounding the populated-slot count makes the
fuel case unreachable (`onImageRequestDone` passes `length + 1`). -/
def evictLoop : Nat → List Nat → Int → Nat → List Nat
  | 0, s, _, _ => s
  | fuel + 1, s, k, maxBytes =>
    if tooMuchDataDecrypted s maxBytes then
      let r := dropDecryptedData s k
      if r.2 then evictLoop fuel r.1 k maxBytes else r.1
    else s

/-- The caching tail of `FoilPicsModel::Private::onImageRequestDone`:
when the task produced bytes (`newBytes ≠ 0`) and `findPath` located the
entry (`idx < sizes.length`), store them in the entry's slot and run the
eviction loop with do-not-touch index `idx`. -/
def onImageRequestDone (sizes : List Nat) (idx newBytes maxBytes : Nat) :
    List Nat :=
  if newBytes ≠ 0 ∧ idx < sizes.length then
    evictLoop (sizes.length + 1) (sizes.set idx newBytes) idx maxBytes
  else sizes

/-! ### C8 — signal coalescing (`queueSignal` / `emitQueuedSignals`) -/

/-- The queued-signal state: `mask` is the `iQueuedSignals` bitmask,
`first` is `iFirstQueuedSignal` (`-1` = `NoSignal`).  Bit indices follow
the `Signal` enum: 0 `countChanged`, 1 `busyChanged`,
2 `keyAvailableChanged`, 3 `foilStateChanged`, 4 `thumbnailSizeChanged`,
5 `mayHaveEncryptedPicturesChanged`; `SignalCount = 6`. -/
structure SignalQueue where
  mask : Nat
  first : Int
deriving DecidableEq, Repr

/-- The state at the start of an engine-thread turn. -/
def initialSignalQueue : SignalQueue :=
  ⟨0, -1⟩

/-- `FoilPicsModel::Private::queueSignal`. -/
def queueSignal (s : SignalQueue) (sig : Int) : SignalQueue :=
  if -1 < sig ∧ sig < 6 then
    let bit : Nat := 1 <<< sig.toNat
    if s.mask ≠ 0 then
      { mask := s.mask ||| bit,
        first := if s.first > sig then sig else s.first }
    else { mask := bit, first := sig }
  else s

/-- The emission loop of `FoilPicsModel::Private::emitQueuedSignals`:
`for (int i = iFirstQueuedSignal; i < SignalCount && iQueuedSignals; i++)`,
emitting and clearing each set bit.  Returns the list of emitted signal
indices; fuel-indexed only to define it in Lean (`emitQueuedSignals`
passes the iteration bound `6 - first`). -/
def emitLoop : Nat → Int → Nat → List Nat
  | 0, _, _ => []
  | fuel + 1, i, mask =>
    if i < 6 ∧ mask ≠ 0 then
      if mask.testBit i.toNat then
        i.toNat :: emitLoop fuel (i + 1) (mask ^^^ (1 <<< i.toNat))
      else emitLoop fuel (i + 1) mask
    else []

/-- `FoilPicsModel::Private::emitQueuedSignals` (the queue always holds
`mask = 0` or `0 ≤ first`, so `6 - first` iterations always suffice). -/
def emitQueuedSignals (s : SignalQueue) : List Nat :=
  if s.mask ≠ 0 then emitLoop (6 - s.first).toNat s.first s.mask else []

/-- The lower-bound invariant maintained for `iFirstQueuedSignal`: when
any signal is queued, `first` is non-negative and no set bit is below
it. -/
def FirstLB (s : SignalQueue) : Prop :=
  s.mask ≠ 0 → 0 ≤ s.first ∧ ∀ j : Nat, s.mask.testBit j = true → s.first ≤ (j : Int)

/-! ### C4 — catalog reconstruction (`DecryptPicsTask::performTask`) -/

/-- The fields of a decrypted, verified `FoilMsg` that
`DecryptPicsTask` inspects, with header parsing applied:
`origPath`/`title` are `headerString` of `Original-Path`/`Title` (`""`
when absent), `orientation`/`fullWidth`/`fullHeight` are `headerInt`
values (default `0`), `modTime` abstracts the parsed
`Modification-Time`, `image` is the size of `toImage`'s result (`none`
for a null image). -/
structure FoilMsgModel where
  origPath : String
  title : String
  orientation : Int
  modTime : Int
  fullWidth : Int
  fullHeight : Int
  contentType : Option String
  image : Option (Int × Int)
deriving DecidableEq, Repr

/-- `BaseTask::decryptAndVerify(QString)`: `NULL` on an empty file name,
otherwise the decryption oracle `dec` (which models
`foilmsg_decrypt_file` + `foilmsg_verify` under the current keys). -/
def decryptAndVerifyO (dec : String → Option FoilMsgModel) (name : String) :
    Option FoilMsgModel :=
  if name.isEmpty then none else dec name

/-- `DecryptPicsTask::decryptImage`: decrypt and verify the image
envelope, require a non-empty `Original-Path` and a decodable image,
regenerate the thumbnail (`wt` is the `writeThumb` oracle, `""` =
failed), and build the entry. -/
def decryptImageT (dec : String → Option FoilMsgModel) (wt : String → String)
    (imagePath : String) : Option ModelData :=
  match decryptAndVerifyO dec imagePath with
  | none => none
  | some m =>
    if m.origPath ≠ "" then
      match m.image with
      | some sz =>
        some { origPath := m.origPath, path := imagePath,
               fileName := m.origPath, thumbFile := wt imagePath,
               title := if m.title = "" then m.origPath else m.title,
               fullSize := sz, thumbSource := "", imageSource := "",
               contentType := m.contentType.getD "",
               orientation := m.orientation, dateTime := m.modTime,
               bytes := 0, decryptTask := false }
      | none => none
    else none

/-- `DecryptPicsTask::decryptThumb`: decrypt and verify the thumbnail
envelope, require positive `Full-Width`/`Full-Height` headers, a
non-empty `Original-Path`, and a decoded bitmap of exactly the
configured thumbnail size. -/
def decryptThumbT (dec : String → Option FoilMsgModel)
    (thumbSize : Int × Int) (imagePath thumbPath : String) :
    Option ModelData :=
  match decryptAndVerifyO dec thumbPath with
  | none => none
  | some m =>
    if 0 < m.fullWidth ∧ 0 < m.fullHeight ∧ m.origPath ≠ "" then
      match m.image with
      | some sz =>
        if sz = thumbSize then
          some { origPath := m.origPath, path := imagePath,
                 fileName := m.origPath, thumbFile := thumbPath,
                 title := if m.title = "" then m.origPath else m.title,
                 fullSize := (m.fullWidth, m.fullHeight),
                 thumbSource := "", imageSource := "",
                 contentType := m.contentType.getD "",
                 orientation := m.orientation, dateTime := m.modTime,
                 bytes := 0, decryptTask := false }
        else none
      | none => none
    else none

/-- `DecryptPicsTask::decryptFile`: try the thumbnail first, fall back to
the full image; the produced entry is emitted as one progress message. -/
def decryptFileT (dec : String → Option FoilMsgModel) (wt : String → String)
    (thumbSize : Int × Int) (imagePath thumbPath : String) :
    Option ModelData :=
  match decryptThumbT dec thumbSize imagePath thumbPath with
  | some d => some d
  | none => decryptImageT dec wt imagePath

/-- The running state of `DecryptPicsTask::performTask`: the remaining
`fileMap` (file names not yet taken; paths and names are identified),
the entries emitted so far, and the `iSaveInfo` flag. -/
structure DecryptPicsState where
  fileMap : List String
  entries : List ModelData
  saveInfo : Bool
deriving Repr

/-- One iteration of the ordered pass: take the image (and its mapped
thumbnail, if any) out of `fileMap` — marking `iSaveInfo` for each name
the recorded order mentions but the directory lacks — then decrypt;
a failed `decryptFile` also marks `iSaveInfo`. -/
def orderedStep (dec : String → Option FoilMsgModel) (wt : String → String)
    (thumbSize : Int × Int) (thumbMap : List (String × String))
    (st : DecryptPicsState) (image : String) : DecryptPicsState :=
  let thumb := (lookupA thumbMap image).getD ""
  let p1 : String × List String × Bool :=
    if image ∈ st.fileMap then (image, st.fileMap.erase image, st.saveInfo)
    else ("", st.fileMap, true)
  let p2 : String × List String × Bool :=
    if thumb ≠ "" then
      if thumb ∈ p1.2.1 then (thumb, p1.2.1.erase thumb, p1.2.2)
      else ("", p1.2.1, true)
    else ("", p1.2.1, p1.2.2)
  match decryptFileT dec wt thumbSize p1.1 p2.1 with
  | some d =>
    { fileMap := p2.2.1, entries := st.entries ++ [d], saveInfo := p2.2.2 }
  | none => { fileMap := p2.2.1, entries := st.entries, saveInfo := true }

/-- The ordered pass of `DecryptPicsTask::performTask` (cancellation is
modelled as never requested). -/
def orderedPass (dec : String → Option FoilMsgModel) (wt : String → String)
    (thumbSize : Int × Int) (thumbMap : List (String × String))
    (order : List String) (st : DecryptPicsState) : DecryptPicsState :=
  order.foldl (orderedStep dec wt thumbSize thumbMap) st

/-- The remaining-files pass of `DecryptPicsTask::performTask`:
`decryptFile(remainingFiles.at(i), QString())` for each file still in the
map, setting `iSaveInfo` when an entry was produced. -/
def remainingPass (dec : String → Option FoilMsgModel) (wt : String → String)
    (thumbSize : Int × Int) (files : List String)
    (entries : List ModelData) (saveInfo : Bool) :
    List ModelData × Bool :=
  files.foldl
    (fun st f =>
      match decryptFileT dec wt thumbSize f "" with
      | some d => (st.1 ++ [d], true)
      | none => st)
    (entries, saveInfo)

/-- `DecryptPicsTask::performTask`: build the file map (already filtered
of `.info`), run the ordered pass from the loaded order, then the
remaining-files pass.  Returns the emitted entries and `iSaveInfo`. -/
def decryptPicsPerformTask (dec : String → Option FoilMsgModel)
    (wt : String → String) (thumbSize : Int × Int)
    (files order : List String) (thumbMap : List (String × String)) :
    List ModelData × Bool :=
  let st := orderedPass dec wt thumbSize thumbMap order
    ⟨files, [], false⟩
  remainingPass dec wt thumbSize st.fileMap st.entries st.saveInfo

/-! ### C6 — order-file encode/decode (`FoilPicsModel::ModelInfo`) -/

/-- `g_ascii_isspace`: the ASCII whitespace characters stripped by
`g_strstrip`. -/
def gAsciiSpace (c : Char) : Bool :=
  c == ' ' || c == '\t' || c == '\n' || c == '\x0b' || c == '\x0c' || c == '\r'

/-- `g_strstrip`: remove leading (`g_strchug`) and trailing
(`g_strchomp`) ASCII whitespace.  Strings are `List Char`. -/
def strip (l : List Char) : List Char :=
  ((l.dropWhile gAsciiSpace).reverse.dropWhile gAsciiSpace).reverse

/-- `strchr(name, ':')`: split at the first colon, if any. -/
def splitFirstColon : List Char → Option (List Char × List Char)
  | [] => none
  | c :: rest =>
    if c = ':' then some ([], rest)
    else
      match splitFirstColon rest with
      | some (a, b) => some (c :: a, b)
      | none => none

/-- `FoilPicsModel::ModelInfo`: the recorded order (`iOrder`) and the
image→thumbnail map (`iThumbMap`, an association list with
`QHash`-style insert-replaces semantics). -/
structure OrderInfo where
  order : List (List Char)
  thumbMap : List (List Char × List Char)
deriving DecidableEq, Repr

/-- `QHash::insert`: replace the value of an existing key, else append. -/
def qhashInsert (m : List (List Char × List Char)) (k v : List Char) :
    List (List Char × List Char) :=
  if (lookupA m k).isSome then
    m.map (fun p => if p.1 = k then (k, v) else p)
  else m ++ [(k, v)]

/-- Processing of one comma-separated token by
`ModelInfo::ModelInfo(const FoilMsg*)`: strip whitespace, skip empty
tokens, split at the first colon into image and thumbnail names. -/
def decodeStep (info : OrderInfo) (tok : List Char) : OrderInfo :=
  if strip tok ≠ [] then
    match splitFirstColon (strip tok) with
    | some (img, thumb) =>
      { order := info.order ++ [img],
        thumbMap := qhashInsert info.thumbMap img thumb }
    | none => { order := info.order ++ [strip tok], thumbMap := info.thumbMap }
  else info

/-- `ModelInfo::ModelInfo(const FoilMsg*)` applied to the value of the
`Order` header: `g_strsplit` on `','` then process each token.
(`g_strsplit` of the empty string yields no tokens; `splitOn` yields
`[[]]`, whose single empty token is skipped — same result.) -/
def decodeOrderHeader (s : List Char) : OrderInfo :=
  (s.splitOn ',').foldl decodeStep ⟨[], []⟩

/-- `iThumbMap.value(img)`: the mapped thumbnail name, `""` if absent. -/
def thumbValue (info : OrderInfo) (img : List Char) : List Char :=
  (lookupA info.thumbMap img).getD []

/-- One token written by `ModelInfo::save`:
`img` or `img ++ ":" ++ thumb` when a non-empty thumbnail is mapped. -/
def encodeToken (info : OrderInfo) (img : List Char) : List Char :=
  img ++ (if thumbValue info img ≠ [] then ':' :: thumbValue info img else [])

/-- The `Order` header value built by `ModelInfo::save`: fold over the
order, separating tokens with `','` (the separator is emitted only when
the buffer is non-empty). -/
def encodeOrderHeader (info : OrderInfo) : List Char :=
  info.order.foldl
    (fun buf img =>
      (if buf ≠ [] then buf ++ [','] else buf) ++ encodeToken info img)
    []

/-- The effective image→thumbnail mapping: a mapped empty name counts as
no thumbnail (as in `ModelInfo::save`, which tests
`!thumb.isEmpty()`). -/
def thumbOf (info : OrderInfo) (img : List Char) : Option (List Char) :=
  if thumbValue info img = [] then none else some (thumbValue info img)

/-- A legal name per the claim: non-empty, containing neither comma nor
colon. -/
def legalName (l : List Char) : Prop :=
  l ≠ [] ∧ ',' ∉ l ∧ ':' ∉ l

/-- The first character (if any) is not ASCII whitespace. -/
def noLeadSpace (l : List Char) : Bool :=
  match l.head? with
  | some c => !gAsciiSpace c
  | none => true

/-- The last character (if any) is not ASCII whitespace. -/
def noTrailSpace (l : List Char) : Bool :=
  match l.getLast? with
  | some c => !gAsciiSpace c
  | none => true

/-- The legality condition under which the order-file round-trip holds:
a legal image name that does not start with ASCII whitespace, whose
mapped thumbnail (when present) is legal and does not end with ASCII
whitespace, and which itself does not end with ASCII whitespace when no
thumbnail is mapped (`g_strstrip` affects only the ends of a whole
token). -/
def RoundTripLegal (info : OrderInfo) (img : List Char) : Prop :=
  legalName img ∧ noLeadSpace img = true ∧
    (match thumbOf info img with
     | some t => legalName t ∧ noTrailSpace t = true
     | none => noTrailSpace img = true)

/-!
## Theorems
-/

/-- C1: the claim says that with populated slots `{0, 2, 5}`, `n = 6`,
do-not-touch `k = 2` the evictee is index 5 (circular distance 3), and
with `{0, 1, 2}`, `n = 3`, `k = 0` the evictee is index 1.  The code's
selection loop — whose own comment says it finds "the index furthest away
from the one we don't touch" on a circular list — instead picks index 0
(distance 2) in the first case and index 2 in the second, because it
compares the do-not-touch index against the current best candidate
(`aDontTouch > indexToDrop`) instead of the loop index when choosing the
distance formula. -/
theorem c1_eviction_code_bug :
    dropIndex [1, 0, 1, 0, 0, 1] 2 = 0 ∧
    specEvictee [1, 0, 1, 0, 0, 1] 2 = some 5 ∧
    circularDistance 6 5 2 = 3 ∧
    circularDistance 6 0 2 = 2 ∧
    dropIndex [1, 1, 1] 0 = 2 ∧
    specEvictee [1, 1, 1] 0 = some 1 := by
  decide

/-- C2 counterexample: from `LockedTimedOut`, a wrong passphrase makes
`unlock` return `false` but the foil state *changes* to `Locked`, so
"foilState unchanged" fails. -/
theorem c2_wrong_passphrase_changes_state :
    (unlockRun (.encrypted "a") "b" .lockedTimedOut).1 = false ∧
    (unlockRun (.encrypted "a") "b" .lockedTimedOut).2 = .locked ∧
    (unlockRun (.encrypted "a") "b" .lockedTimedOut).2 ≠ .lockedTimedOut := by
  decide

/-- Evaluating `setFoilState` always yields the requested state. -/
theorem setFoilState_eq (st new : FoilState) : setFoilState st new = new := by
  unfold setFoilState
  by_cases h : st ≠ new
  · simp [h]
  · simp only [if_neg h]
    exact not_not.mp h

/-- C2 amended: on a wrong passphrase `unlock` returns `false` and sets
the state to `Locked` (so the state is unchanged exactly when it already
was `Locked`; from `LockedTimedOut` it changes to `Locked`); on success it
returns `true` and transitions to `Decrypting`. -/
theorem c2_unlock_amended (pass given : String) (st : FoilState)
    (hwrong : given ≠ pass) :
    (unlockRun (.encrypted pass) given st).1 = false ∧
    (unlockRun (.encrypted pass) given st).2 = .locked ∧
    (unlockRun (.encrypted pass) pass st).1 = true ∧
    (unlockRun (.encrypted pass) pass st).2 = .decrypting := by
  refine ⟨?_, ?_, ?_, ?_⟩ <;>
    simp [unlockRun, hwrong, setFoilState_eq]

/-- C2 witness: concrete instance of `c2_unlock_amended`. -/
theorem c2_unlock_amended_witness :
    (unlockRun (.encrypted "pw") "xx" .lockedTimedOut).1 = false ∧
    (unlockRun (.encrypted "pw") "xx" .lockedTimedOut).2 = .locked ∧
    (unlockRun (.encrypted "pw") "pw" .lockedTimedOut).1 = true ∧
    (unlockRun (.encrypted "pw") "pw" .lockedTimedOut).2 = .decrypting :=
  c2_unlock_amended "pw" "xx" .lockedTimedOut (by decide)

/-- C5 counterexample: with the source mapped, the output file created,
the image decoded and the image envelope encrypted successfully, a
*failed thumbnail write* — a step after the image envelope is written —
still produces the entry (with an empty `thumbFile`), deletes the source
file, and does *not* unlink the image envelope, contradicting the claim
that any failure after the envelope write unlinks the envelope and leaves
the source intact. -/
theorem c5_thumb_failure_keeps_envelope :
    (encryptPerformTask true true true true (some (640, 480))
        (some "image/png") "" "/tmp/a.png" "AA00" 0 7).entry.isSome = true ∧
    (encryptPerformTask true true true true (some (640, 480))
        (some "image/png") "" "/tmp/a.png" "AA00" 0 7).sourceDeleted = true ∧
    (encryptPerformTask true true true true (some (640, 480))
        (some "image/png") "" "/tmp/a.png" "AA00" 0 7).unlinkCalled = false ∧
    (encryptPerformTask true true true true (some (640, 480))
        (some "image/png") "" "/tmp/a.png" "AA00" 0 7).entry.map
        ModelData.thumbFile = some "" := by
  refine ⟨rfl, rfl, rfl, rfl⟩

/-- C5 amended: the source file is deleted if and only if an entry was
produced; an entry is produced exactly when mapping, output-file creation,
image decoding and the image-envelope encryption all succeed (steps after
the envelope write cannot prevent it); and the envelope path is unlinked
exactly when the source was mapped but no entry was produced. -/
theorem c5_encrypt_amended (mapOk createOk encryptOk statOk : Bool)
    (decoded : Option (Int × Int)) (contentType : Option String)
    (thumbName sourceFile destPath : String) (orientation modTime : Int) :
    (encryptPerformTask mapOk createOk encryptOk statOk decoded contentType
        thumbName sourceFile destPath orientation modTime).sourceDeleted =
      (encryptPerformTask mapOk createOk encryptOk statOk decoded contentType
        thumbName sourceFile destPath orientation modTime).entry.isSome ∧
    (encryptPerformTask mapOk createOk encryptOk statOk decoded contentType
        thumbName sourceFile destPath orientation modTime).entry.isSome =
      (mapOk && createOk && decoded.isSome && encryptOk) ∧
    (encryptPerformTask mapOk createOk encryptOk statOk decoded contentType
        thumbName sourceFile destPath orientation modTime).unlinkCalled =
      (mapOk && !(createOk && decoded.isSome && encryptOk)) := by
  cases mapOk <;> cases createOk <;> cases encryptOk <;> cases decoded <;>
    simp [encryptPerformTask]

/-- C7 counterexample: with a non-square configured thumbnail size
`32 × 48` and orientation 90 the produced thumbnail is `48 × 32`, not the
configured size. -/
theorem c7_nonsquare_rotation :
    modelThumbnailSize (640, 480) (32, 48) 90 = (48, 32) ∧
    ((48 : Int), (32 : Int)) ≠ ((32 : Int), (48 : Int)) := by
  decide

/-- C7 amended: for orientations in `{0, 90, 180, 270}` the thumbnail has
exactly the configured size whenever the configured size is square or the
orientation is 0 or 180; for a non-square size with orientation 90 or 270
the dimensions are transposed. -/
theorem c7_thumbnail_size_amended (imgSz thumbSz : Int × Int) (rotate : Int)
    (hrot : rotate = 0 ∨ rotate = 90 ∨ rotate = 180 ∨ rotate = 270)
    (hok : thumbSz.1 = thumbSz.2 ∨ rotate = 0 ∨ rotate = 180) :
    modelThumbnailSize imgSz thumbSz rotate = thumbSz := by
  obtain ⟨tw, th⟩ := thumbSz
  rcases hrot with h | h | h | h <;> subst h
  · simp [modelThumbnailSize]
  · rcases hok with hsq | h0 | h0
    · simp only at hsq
      subst hsq
      simp [modelThumbnailSize, rotatedBoundingSize,
        show ((-90 : Int)).emod 180 ≠ 0 by decide,
        show ((-90 : Int)).emod 90 = 0 by decide]
    · exact absurd h0 (by decide)
    · exact absurd h0 (by decide)
  · simp [modelThumbnailSize, rotatedBoundingSize,
      show ((-180 : Int)).emod 180 = 0 by decide]
  · rcases hok with hsq | h0 | h0
    · simp only at hsq
      subst hsq
      simp [modelThumbnailSize, rotatedBoundingSize,
        show ((-270 : Int)).emod 180 ≠ 0 by decide,
        show ((-270 : Int)).emod 90 = 0 by decide]
    · exact absurd h0 (by decide)
    · exact absurd h0 (by decide)

/-- C7 witness: concrete instance of `c7_thumbnail_size_amended` with the
default square `32 × 32` thumbnail size and orientation 90. -/
theorem c7_thumbnail_size_amended_witness :
    ((90 : Int) = 0 ∨ (90 : Int) = 90 ∨ (90 : Int) = 180 ∨ (90 : Int) = 270) ∧
    modelThumbnailSize (640, 480) (32, 32) 90 = (32, 32) :=
  ⟨Or.inr (Or.inl rfl),
   c7_thumbnail_size_amended (640, 480) (32, 32) 90 (Or.inr (Or.inl rfl))
     (Or.inl rfl)⟩

/-- C9: destroying the entry at any valid index leaves the
`mayHaveEncryptedPictures` flag `false` unconditionally — also when other
entries remain — and every insertion leaves it `true`. -/
theorem c9_mayhave_flags (l : List ModelData) (b : Bool) (i : Int)
    (d : ModelData) (h0 : 0 ≤ i) (h1 : i < l.length) :
    (destroyItemAt l b i).2 = false ∧ (insertModelData l b d).2 = true := by
  refine ⟨?_, rfl⟩
  unfold destroyItemAt
  rw [if_pos ⟨h0, le_of_lt h1⟩]

/-- C9 witness: destroying one of two entries (one entry remains) drops
the flag to `false`; inserting into a one-entry catalog sets it `true`. -/
theorem c9_mayhave_flags_witness :
    (destroyItemAt [sampleEntry, sampleEntry] true 0).2 = false ∧
    (insertModelData [sampleEntry] true sampleEntry).2 = true :=
  c9_mayhave_flags [sampleEntry, sampleEntry] true 0 sampleEntry
    (by decide) (by simp)

/-- C10: for any signed index outside `[0, count)`, `dataAt` returns
`NULL`, `get` returns the empty map, `data` returns the null variant, and
`removeAt` and `decryptAt` leave the catalog (and the flag) unchanged. -/
theorem c10_out_of_range (l : List ModelData) (b : Bool) (i : Int) (r : Role)
    (h : ¬(0 ≤ i ∧ i < l.length)) :
    dataAt l i = none ∧ getMap l i = [] ∧ roleData l i r = none ∧
    removeAt l b i = (l, b) ∧ decryptAt l i = l := by
  have hd : dataAt l i = none := by
    unfold dataAt
    rw [if_neg h]
  refine ⟨hd, ?_, ?_, ?_, ?_⟩
  · unfold getMap
    rw [hd]
  · unfold roleData
    rw [hd]
    rfl
  · unfold removeAt
    rw [hd]
  · unfold decryptAt
    rw [hd]

/-- C10 witness: index `-1` on a one-entry catalog. -/
theorem c10_out_of_range_witness :
    dataAt [sampleEntry] (-1) = none ∧
    getMap [sampleEntry] (-1) = [] ∧
    roleData [sampleEntry] (-1) Role.title = none ∧
    removeAt [sampleEntry] true (-1) = ([sampleEntry], true) ∧
    decryptAt [sampleEntry] (-1) = [sampleEntry] :=
  c10_out_of_range [sampleEntry] true (-1) Role.title (by simp)

/-- A catalog with no populated slot never triggers `tooMuchLoop`. -/
theorem tooMuchLoop_false_of_popCount_zero (maxBytes : Nat) :
    ∀ (l : List Nat) (c t : Nat), popCount l = 0 →
      tooMuchLoop maxBytes l c t = false := by
  intro l
  induction l with
  | nil => intro c t _; rfl
  | cons b rest ih =>
    intro c t h
    rw [popCount, List.countP_cons] at h
    by_cases hb : b = 0
    · subst hb
      simpa [tooMuchLoop] using ih c t (by simpa [popCount] using h)
    · simp [hb] at h

/-- A catalog with no populated slot has zero total size. -/
theorem sum_eq_zero_of_popCount_zero :
    ∀ l : List Nat, popCount l = 0 → l.sum = 0 := by
  intro l
  induction l with
  | nil => intro _; rfl
  | cons b rest ih =>
    intro h
    rw [popCount, List.countP_cons] at h
    by_cases hb : b = 0
    · subst hb
      simpa using ih (by simpa [popCount] using h)
    · simp [hb] at h

/-- Characterisation of `tooMuchLoop`: on a catalog with at least one
populated slot it reports exactly "at least two populated slots in total
and the accumulated size exceeds the budget". -/
theorem tooMuchLoop_iff (maxBytes : Nat) :
    ∀ (l : List Nat) (c t : Nat), popCount l ≠ 0 →
      (tooMuchLoop maxBytes l c t = true ↔
        (2 ≤ c + popCount l ∧ maxBytes < t + l.sum)) := by
  intro l
  induction l with
  | nil => intro c t h; exact absurd rfl h
  | cons b rest ih =>
    intro c t h
    by_cases hb : b = 0
    · subst hb
      have hrest : popCount rest ≠ 0 := by simpa [popCount] using h
      simpa [tooMuchLoop, popCount, List.countP_cons] using ih c t hrest
    · have hpc : popCount (b :: rest) = popCount rest + 1 := by
        simp [popCount, List.countP_cons, hb]
      have hs : (b :: rest).sum = b + rest.sum := List.sum_cons
      by_cases hcond : 1 < c + 1 ∧ maxBytes < t + b
      · have hl : tooMuchLoop maxBytes (b :: rest) c t = true := by
          simp only [tooMuchLoop]
          rw [if_pos hb, if_pos hcond]
        rw [hl]
        constructor
        · intro _
          exact ⟨by omega, by omega⟩
        · intro _
          rfl
      · have hl : tooMuchLoop maxBytes (b :: rest) c t =
            tooMuchLoop maxBytes rest (c + 1) (t + b) := by
          simp only [tooMuchLoop]
          rw [if_pos hb, if_neg hcond]
        rw [hl, hpc, List.sum_cons]
        by_cases hrest : popCount rest = 0
        · rw [tooMuchLoop_false_of_popCount_zero maxBytes rest _ _ hrest]
          have hsum : rest.sum = 0 := sum_eq_zero_of_popCount_zero rest hrest
          rw [hrest, hsum]
          push_neg at hcond
          constructor
          · intro hcontra
            simp at hcontra
          · rintro ⟨h1, h2⟩
            exfalso
            have := hcond (by omega)
            omega
        · rw [ih (c + 1) (t + b) hrest]
          constructor
          · rintro ⟨h1, h2⟩; exact ⟨by omega, by omega⟩
          · rintro ⟨h1, h2⟩; exact ⟨by omega, by omega⟩

/-- Characterisation of `tooMuchDataDecrypted`: true iff at least two
slots are populated and the total exceeds the budget. -/
theorem tooMuchDataDecrypted_iff (sizes : List Nat) (maxBytes : Nat) :
    tooMuchDataDecrypted sizes maxBytes = true ↔
      (2 ≤ popCount sizes ∧ maxBytes < totalBytes sizes) := by
  by_cases h : popCount sizes = 0
  · rw [tooMuchDataDecrypted,
      tooMuchLoop_false_of_popCount_zero maxBytes sizes 0 0 h, h]
    simp
  · rw [tooMuchDataDecrypted, tooMuchLoop_iff maxBytes sizes 0 0 h]
    rw [totalBytes]
    omega

/-- Clearing a populated slot decreases the populated count by one. -/
theorem popCount_set_zero :
    ∀ (l : List Nat) (j : Nat), j < l.length → l.getD j 0 ≠ 0 →
      popCount (l.set j 0) + 1 = popCount l := by
  intro l
  induction l with
  | nil => intro j h _; simp at h
  | cons b rest ih =>
    intro j hj hb
    cases j with
    | zero =>
      have hb' : b ≠ 0 := by simpa [List.getD] using hb
      simp [popCount, List.countP_cons, hb']
    | succ j =>
      have hj' : j < rest.length := by simpa using hj
      have hb' : rest.getD j 0 ≠ 0 := by
        simpa [List.getD] using hb
      have := ih j hj' hb'
      simp only [List.set_cons_succ, popCount, List.countP_cons]
      simp only [popCount] at this
      omega

/-- A catalog with a populated slot has a populated index. -/
theorem exists_populated_of_popCount_pos :
    ∀ l : List Nat, 1 ≤ popCount l →
      ∃ i : Nat, i < l.length ∧ l.getD i 0 ≠ 0 := by
  intro l
  induction l with
  | nil => intro h; simp [popCount] at h
  | cons b rest ih =>
    intro h
    by_cases hb : b = 0
    · subst hb
      have : 1 ≤ popCount rest := by simpa [popCount, List.countP_cons] using h
      obtain ⟨i, hi, hpop⟩ := ih this
      exact ⟨i + 1, by simpa using hi, by simpa [List.getD] using hpop⟩
    · exact ⟨0, by simp, by simpa [List.getD] using hb⟩

/-- A catalog with two populated slots has two distinct populated
indices. -/
theorem exists_two_populated_of_popCount :
    ∀ l : List Nat, 2 ≤ popCount l →
      ∃ i j : Nat, i < j ∧ j < l.length ∧
        l.getD i 0 ≠ 0 ∧ l.getD j 0 ≠ 0 := by
  intro l
  induction l with
  | nil => intro h; simp [popCount] at h
  | cons b rest ih =>
    intro h
    by_cases hb : b = 0
    · subst hb
      have : 2 ≤ popCount rest := by simpa [popCount, List.countP_cons] using h
      obtain ⟨i, j, hij, hj, hi0, hj0⟩ := ih this
      exact ⟨i + 1, j + 1, by omega, by simpa using hj,
        by simpa [List.getD] using hi0, by simpa [List.getD] using hj0⟩
    · have hpc : popCount (b :: rest) = popCount rest + 1 := by
        simp [popCount, List.countP_cons, hb]
      have h1 : 1 ≤ popCount rest := by omega
      obtain ⟨i, hi, hpop⟩ := exists_populated_of_popCount_pos rest h1
      exact ⟨0, i + 1, by omega, by simpa using hi,
        by simpa [List.getD] using hb, by simpa [List.getD] using hpop⟩

/-- With two populated slots there is a populated index different from
any given do-not-touch index. -/
theorem exists_candidate_of_two_populated (l : List Nat) (k : Int)
    (h : 2 ≤ popCount l) :
    ∃ i : Nat, i < l.length ∧ (i : Int) ≠ k ∧ l.getD i 0 ≠ 0 := by
  obtain ⟨i, j, hij, hj, hi0, hj0⟩ := exists_two_populated_of_popCount l h
  by_cases hk : (i : Int) = k
  · refine ⟨j, hj, ?_, hj0⟩
    intro hjk
    rw [← hk] at hjk
    have : i = j := by exact_mod_cast hjk.symm
    omega
  · exact ⟨i, by omega, hk, hi0⟩

/-- Each `dropScanStep` either keeps the state or selects the current,
populated, non-do-not-touch index. -/
theorem dropScanStep_cases (s : List Nat) (k : Int) (st : Int × Int) (i : Nat) :
    dropScanStep s k st i = st ∨
      ((dropScanStep s k st i).1 = (i : Int) ∧ (i : Int) ≠ k ∧
        s.getD i 0 ≠ 0) := by
  unfold dropScanStep
  by_cases hcond : (i : Int) ≠ k ∧ s.getD i 0 ≠ 0
  · rw [if_pos hcond]
    by_cases hsel : st.1 < 0 ∨ dropDistance s k st i > st.2
    · rw [if_pos hsel]
      exact Or.inr ⟨rfl, hcond⟩
    · rw [if_neg hsel]
      exact Or.inl rfl
  · rw [if_neg hcond]
    exact Or.inl rfl

/-- `dropScanStep` never turns a selected candidate back into `-1`. -/
theorem dropScanStep_nonneg (s : List Nat) (k : Int) (st : Int × Int) (i : Nat)
    (h : 0 ≤ st.1) : 0 ≤ (dropScanStep s k st i).1 := by
  rcases dropScanStep_cases s k st i with hc | hc
  · rw [hc]; exact h
  · rw [hc.1]; exact Int.ofNat_nonneg i

/-- The selection fold preserves non-negativity of the candidate. -/
theorem foldl_dropScanStep_nonneg (s : List Nat) (k : Int) :
    ∀ (is : List Nat) (st : Int × Int), 0 ≤ st.1 →
      0 ≤ (is.foldl (dropScanStep s k) st).1 := by
  intro is
  induction is with
  | nil => intro st h; exact h
  | cons a rest ih =>
    intro st h
    exact ih _ (dropScanStep_nonneg s k st a h)

/-- If some processed index is populated and differs from the
do-not-touch index, the fold ends with a selected candidate. -/
theorem foldl_dropScanStep_hits (s : List Nat) (k : Int) :
    ∀ (is : List Nat) (st : Int × Int) (i : Nat), i ∈ is →
      (i : Int) ≠ k → s.getD i 0 ≠ 0 →
      0 ≤ (is.foldl (dropScanStep s k) st).1 := by
  intro is
  induction is with
  | nil => intro st i h; simp at h
  | cons a rest ih =>
    intro st i hmem hik hipop
    rw [List.foldl_cons]
    rcases List.mem_cons.mp hmem with rfl | hmem
    · apply foldl_dropScanStep_nonneg
      unfold dropScanStep
      rw [if_pos ⟨hik, hipop⟩]
      by_cases hsel : st.1 < 0 ∨ dropDistance s k st i > st.2
      · rw [if_pos hsel]
        exact Int.ofNat_nonneg i
      · rw [if_neg hsel]
        push_neg at hsel
        exact hsel.1
    · exact ih _ i hmem hik hipop

/-- Fold invariant: the candidate is `-1` or a valid, populated,
non-do-not-touch index. -/
theorem foldl_dropScanStep_valid (s : List Nat) (k : Int) :
    ∀ (is : List Nat) (st : Int × Int),
      (st.1 = -1 ∨ ∃ j : Nat, st.1 = (j : Int) ∧ j < s.length ∧
        (j : Int) ≠ k ∧ s.getD j 0 ≠ 0) →
      (∀ i ∈ is, i < s.length) →
      ((is.foldl (dropScanStep s k) st).1 = -1 ∨
        ∃ j : Nat, (is.foldl (dropScanStep s k) st).1 = (j : Int) ∧
          j < s.length ∧ (j : Int) ≠ k ∧ s.getD j 0 ≠ 0) := by
  intro is
  induction is with
  | nil => intro st h _; exact h
  | cons a rest ih =>
    intro st h hbound
    apply ih
    · rcases dropScanStep_cases s k st a with hc | hc
      · rw [hc]; exact h
      · exact Or.inr ⟨a, hc.1, hbound a (List.mem_cons_self a rest), hc.2⟩
    · intro i hi
      exact hbound i (List.mem_cons_of_mem a hi)

/-- A non-negative `dropIndex` is a valid populated index different from
the do-not-touch index. -/
theorem dropIndex_spec (s : List Nat) (k : Int) (h : 0 ≤ dropIndex s k) :
    ∃ j : Nat, dropIndex s k = (j : Int) ∧ j < s.length ∧
      (j : Int) ≠ k ∧ s.getD j 0 ≠ 0 := by
  have := foldl_dropScanStep_valid s k (List.range s.length) (-1, -1)
    (Or.inl rfl) (by intro i hi; exact List.mem_range.mp hi)
  rcases this with hneg | hval
  · rw [dropIndex, dropScan] at h
    rw [hneg] at h
    omega
  · exact hval

/-- With at least two populated slots, `dropDecryptedData` drops a slot
and decreases the populated count by exactly one. -/
theorem dropDecryptedData_drops (s : List Nat) (k : Int)
    (h : 2 ≤ popCount s) :
    (dropDecryptedData s k).2 = true ∧
      popCount (dropDecryptedData s k).1 + 1 = popCount s := by
  obtain ⟨i, hi, hik, hipop⟩ := exists_candidate_of_two_populated s k h
  have hnn : 0 ≤ dropIndex s k := by
    rw [dropIndex, dropScan]
    exact foldl_dropScanStep_hits s k (List.range s.length) (-1, -1) i
      (List.mem_range.mpr hi) hik hipop
  obtain ⟨j, hj, hjlen, _, hjpop⟩ := dropIndex_spec s k hnn
  have htons : (dropIndex s k).toNat = j := by
    rw [hj]; exact Int.toNat_natCast j
  constructor
  · rw [dropDecryptedData]
    simp only [if_pos hnn]
  · rw [dropDecryptedData]
    simp only [if_pos hnn, htons]
    exact popCount_set_zero s j hjlen hjpop

/-- With fuel bounding the populated count, the eviction loop ends in a
state where the total fits the budget or at most one slot is populated. -/
theorem evictLoop_post :
    ∀ (fuel : Nat) (s : List Nat) (k : Int) (maxBytes : Nat),
      popCount s ≤ fuel →
      totalBytes (evictLoop fuel s k maxBytes) ≤ maxBytes ∨
        popCount (evictLoop fuel s k maxBytes) ≤ 1 := by
  intro fuel
  induction fuel with
  | zero =>
    intro s k maxBytes h
    refine Or.inr ?_
    simp only [evictLoop]
    omega
  | succ fuel ih =>
    intro s k maxBytes h
    by_cases htm : tooMuchDataDecrypted s maxBytes = true
    · have hpop : 2 ≤ popCount s := ((tooMuchDataDecrypted_iff s maxBytes).mp htm).1
      obtain ⟨hdrop, hdec⟩ := dropDecryptedData_drops s k hpop
      have hstep : evictLoop (fuel + 1) s k maxBytes =
          evictLoop fuel (dropDecryptedData s k).1 k maxBytes := by
        simp only [evictLoop]
        rw [if_pos htm, hdrop]
        simp
      rw [hstep]
      exact ih _ k maxBytes (by omega)
    · have hstep : evictLoop (fuel + 1) s k maxBytes = s := by
        simp only [evictLoop]
        rw [if_neg htm]
      rw [hstep]
      have hnot : ¬(2 ≤ popCount s ∧ maxBytes < totalBytes s) := fun hc =>
        htm ((tooMuchDataDecrypted_iff s maxBytes).mpr hc)
      by_cases hp : 2 ≤ popCount s
      · refine Or.inl ?_
        by_contra hgt
        exact hnot ⟨hp, by omega⟩
      · exact Or.inr (by omega)

/-- C3: after an `ImageRequest` result is admitted to the cache (`findPath`
found the entry and the task produced bytes) and the eviction loop runs,
either the total size of all decrypted-data slots is within
`iMaxBytesToDecrypt`, or at most one slot is populated. -/
theorem c3_cache_budget (sizes : List Nat) (idx newBytes maxBytes : Nat)
    (hidx : idx < sizes.length) (hb : newBytes ≠ 0) :
    totalBytes (onImageRequestDone sizes idx newBytes maxBytes) ≤ maxBytes ∨
      popCount (onImageRequestDone sizes idx newBytes maxBytes) ≤ 1 := by
  rw [onImageRequestDone, if_pos ⟨hb, hidx⟩]
  apply evictLoop_post
  calc popCount (sizes.set idx newBytes)
      ≤ (sizes.set idx newBytes).length := List.countP_le_length _
    _ = sizes.length := List.length_set sizes idx newBytes
    _ ≤ sizes.length + 1 := Nat.le_succ _

/-- C3 witness: admitting 100 bytes at index 0 of `[5, 7, 9]` with budget
10 evicts down to a single populated slot. -/
theorem c3_cache_budget_witness :
    (0 : Nat) < ([5, 7, 9] : List Nat).length ∧ (100 : Nat) ≠ 0 ∧
      (totalBytes (onImageRequestDone [5, 7, 9] 0 100 10) ≤ 10 ∨
        popCount (onImageRequestDone [5, 7, 9] 0 100 10) ≤ 1) :=
  ⟨by decide, by decide,
   c3_cache_budget [5, 7, 9] 0 100 10 (by decide) (by decide)⟩

/-- The single-bit mask `1 << sig.toNat` has exactly the bit `sig` set,
for an in-range signal. -/
theorem shiftBit_testBit (a : Int) (ha : -1 < a ∧ a < 6) (j : Nat) :
    ((1 : Nat) <<< a.toNat).testBit j = decide (j < 6 ∧ (j : Int) = a) := by
  by_cases hj : a.toNat = j
  · subst hj
    rw [Nat.shiftLeft_eq, one_mul, Nat.testBit_two_pow_self]
    have h1 : ((a.toNat : Int)) = a := Int.toNat_of_nonneg (by omega)
    have h2 : a.toNat < 6 := by omega
    simp [h1, h2]
  · rw [Nat.shiftLeft_eq, one_mul, Nat.testBit_two_pow_of_ne hj]
    have : ¬((j : Int) = a) := by
      intro hja
      apply hj
      omega
    simp [this]

/-- Effect of `queueSignal` on the mask: the bit of an in-range signal is
added, everything else is unchanged. -/
theorem queueSignal_testBit (s : SignalQueue) (a : Int) (j : Nat) :
    (queueSignal s a).mask.testBit j =
      (s.mask.testBit j || decide (j < 6 ∧ (j : Int) = a)) := by
  unfold queueSignal
  by_cases hg : -1 < a ∧ a < 6
  · rw [if_pos hg]
    by_cases hm : s.mask ≠ 0
    · simp only [if_pos hm]
      rw [Nat.testBit_lor, shiftBit_testBit a hg j]
    · simp only [if_neg hm]
      push_neg at hm
      rw [hm] at *
      rw [shiftBit_testBit a hg j, Nat.zero_testBit, Bool.false_or]
  · rw [if_neg hg]
    have : ¬(j < 6 ∧ (j : Int) = a) := by
      rintro ⟨h6, hja⟩
      apply hg
      omega
    simp [this]

/-- `queueSignal` preserves the `iFirstQueuedSignal` lower-bound
invariant. -/
theorem queueSignal_firstLB (s : SignalQueue) (a : Int) (h : FirstLB s) :
    FirstLB (queueSignal s a) := by
  unfold queueSignal
  by_cases hg : -1 < a ∧ a < 6
  · rw [if_pos hg]
    by_cases hm : s.mask ≠ 0
    · simp only [if_pos hm]
      intro _
      obtain ⟨h0, hbound⟩ := h hm
      have hfirst : (if s.first > a then a else s.first) ≤ s.first ∧
          0 ≤ (if s.first > a then a else s.first) ∧
          (if s.first > a then a else s.first) ≤ a := by
        by_cases hfa : s.first > a
        · rw [if_pos hfa]
          omega
        · rw [if_neg hfa]
          omega
      constructor
      · show 0 ≤ (if s.first > a then a else s.first)
        exact hfirst.2.1
      · intro j hj
        show (if s.first > a then a else s.first) ≤ (j : Int)
        have hj2 : (s.mask ||| 1 <<< a.toNat).testBit j = true := hj
        rw [Nat.testBit_lor, shiftBit_testBit a hg j] at hj2
        have hj3 : s.mask.testBit j = true ∨ (j < 6 ∧ (j : Int) = a) := by
          simpa using hj2
        rcases hj3 with hold | hnew
        · have := hbound j hold
          omega
        · omega
    · simp only [if_neg hm]
      push_neg at hm
      intro _
      constructor
      · show 0 ≤ a
        omega
      · intro j hj
        show a ≤ (j : Int)
        have hj2 : ((1 : Nat) <<< a.toNat).testBit j = true := hj
        rw [shiftBit_testBit a hg j] at hj2
        have hja := of_decide_eq_true hj2
        omega
  · rw [if_neg hg]
    exact h

/-- Mask characterisation after queueing a whole sequence of signals:
bit `j` is set iff it was set before or some in-range queued signal
equals `j`. -/
theorem foldl_queueSignal_testBit (qs : List Int) :
    ∀ (s : SignalQueue) (j : Nat),
      (qs.foldl queueSignal s).mask.testBit j =
        (s.mask.testBit j || decide (j < 6 ∧ (j : Int) ∈ qs)) := by
  induction qs with
  | nil =>
    intro s j
    simp
  | cons a rest ih =>
    intro s j
    rw [List.foldl_cons, ih, queueSignal_testBit]
    by_cases h6 : j < 6
    · by_cases hja : (j : Int) = a
      · simp [h6, hja, List.mem_cons]
      · by_cases hjr : (j : Int) ∈ rest
        · simp [h6, hja, hjr, List.mem_cons]
        · simp [h6, hja, hjr, List.mem_cons]
    · simp [h6]

/-- The `iFirstQueuedSignal` invariant holds after queueing any sequence
of signals. -/
theorem foldl_queueSignal_firstLB (qs : List Int) :
    ∀ s : SignalQueue, FirstLB s → FirstLB (qs.foldl queueSignal s) := by
  induction qs with
  | nil => intro s h; exact h
  | cons a rest ih =>
    intro s h
    rw [List.foldl_cons]
    exact ih _ (queueSignal_firstLB s a h)

/-- Every index emitted by `emitLoop` is at least the loop counter. -/
theorem emitLoop_lower_bound :
    ∀ (fuel : Nat) (i : Int) (mask : Nat) (n : Nat),
      n ∈ emitLoop fuel i mask → i ≤ (n : Int) := by
  intro fuel
  induction fuel with
  | zero => intro i mask n h; simp [emitLoop] at h
  | succ fuel ih =>
    intro i mask n h
    rw [emitLoop] at h
    by_cases hg : i < 6 ∧ mask ≠ 0
    · rw [if_pos hg] at h
      by_cases hbit : mask.testBit i.toNat
      · rw [if_pos hbit] at h
        rcases List.mem_cons.mp h with rfl | h
        · exact Int.self_le_toNat i
        · have := ih (i + 1) _ n h
          omega
      · rw [if_neg hbit] at h
        have := ih (i + 1) mask n h
        omega
    · rw [if_neg hg] at h
      simp at h

/-- Membership in the `emitLoop` output, given enough fuel: exactly the
set bits at positions in `[i, 6)`. -/
theorem emitLoop_mem :
    ∀ (fuel : Nat) (i : Int) (mask : Nat), 0 ≤ i → 6 - i ≤ (fuel : Int) →
      ∀ n : Nat, (n ∈ emitLoop fuel i mask ↔
        (i ≤ (n : Int) ∧ n < 6 ∧ mask.testBit n = true)) := by
  intro fuel
  induction fuel with
  | zero =>
    intro i mask hi hfuel n
    have h6 : 6 ≤ i := by
      simp at hfuel
      omega
    simp only [emitLoop, List.not_mem_nil, false_iff]
    rintro ⟨h1, h2, _⟩
    omega
  | succ fuel ih =>
    intro i mask hi hfuel n
    rw [emitLoop]
    by_cases hg : i < 6 ∧ mask ≠ 0
    · rw [if_pos hg]
      have hcast : ((i.toNat : Int)) = i := Int.toNat_of_nonneg hi
      by_cases hbit : mask.testBit i.toNat
      · rw [if_pos hbit]
        constructor
        · intro h
          rcases List.mem_cons.mp h with rfl | h
          · exact ⟨by omega, by omega, hbit⟩
          · have hrec := (ih (i + 1) _ (by omega) (by omega) n).mp h
            obtain ⟨h1, h2, h3⟩ := hrec
            have hne : n ≠ i.toNat := by omega
            have hxor : ((mask ^^^ 1 <<< i.toNat).testBit n) = mask.testBit n := by
              rw [Nat.testBit_xor, Nat.shiftLeft_eq, one_mul,
                Nat.testBit_two_pow_of_ne (fun hc => hne hc.symm)]
              simp
            rw [hxor] at h3
            exact ⟨by omega, h2, h3⟩
        · rintro ⟨h1, h2, h3⟩
          by_cases hn : n = i.toNat
          · subst hn
            exact List.mem_cons_self _ _
          · refine List.mem_cons_of_mem _ ?_
            refine (ih (i + 1) _ (by omega) (by omega) n).mpr ?_
            have hxor : ((mask ^^^ 1 <<< i.toNat).testBit n) = mask.testBit n := by
              rw [Nat.testBit_xor, Nat.shiftLeft_eq, one_mul,
                Nat.testBit_two_pow_of_ne (fun hc => hn hc.symm)]
              simp
            rw [hxor]
            refine ⟨?_, h2, h3⟩
            omega
      · rw [if_neg hbit]
        rw [ih (i + 1) mask (by omega) (by omega) n]
        constructor
        · rintro ⟨h1, h2, h3⟩
          exact ⟨by omega, h2, h3⟩
        · rintro ⟨h1, h2, h3⟩
          have hn : n ≠ i.toNat := by
            intro hc
            rw [hc] at h3
            rw [h3] at hbit
            exact hbit rfl
          refine ⟨by omega, h2, h3⟩
    · rw [if_neg hg]
      simp only [List.not_mem_nil, false_iff]
      rintro ⟨h1, h2, h3⟩
      rcases not_and_or.mp hg with h6 | hmask
      · omega
      · push_neg at hmask
        rw [hmask, Nat.zero_testBit] at h3
        exact Bool.false_ne_true h3

/-- The `emitLoop` output is strictly increasing (for a non-negative
loop counter). -/
theorem emitLoop_chain :
    ∀ (fuel : Nat) (i : Int) (mask : Nat), 0 ≤ i →
      List.Chain' (· < ·) (emitLoop fuel i mask) := by
  intro fuel
  induction fuel with
  | zero => intro i mask _; simp [emitLoop]
  | succ fuel ih =>
    intro i mask hi
    rw [emitLoop]
    by_cases hg : i < 6 ∧ mask ≠ 0
    · rw [if_pos hg]
      by_cases hbit : mask.testBit i.toNat
      · rw [if_pos hbit]
        refine List.chain'_cons'.mpr ⟨?_, ih (i + 1) _ (by omega)⟩
        intro b hb
        have hmem := List.mem_of_mem_head? hb
        have := emitLoop_lower_bound fuel (i + 1) _ b hmem
        omega
      · rw [if_neg hbit]
        exact ih (i + 1) mask (by omega)
    · rw [if_neg hg]
      simp

/-- C8: within one engine-thread turn, after any sequence of
`queueSignal` calls (arbitrary order and multiplicity, out-of-range
values ignored), `emitQueuedSignals` emits a strictly increasing list of
signal indices — i.e. each queued signal at most once, in the fixed enum
order `countChanged < busyChanged < keyAvailableChanged <
foilStateChanged < thumbnailSizeChanged <
mayHaveEncryptedPicturesChanged` — containing exactly the in-range
signals that were queued. -/
theorem c8_signal_emission (qs : List Int) :
    List.Chain' (· < ·)
      (emitQueuedSignals (qs.foldl queueSignal initialSignalQueue)) ∧
    ∀ n : Nat,
      n ∈ emitQueuedSignals (qs.foldl queueSignal initialSignalQueue) ↔
        (n < 6 ∧ (n : Int) ∈ qs) := by
  have hchar : ∀ j : Nat,
      (qs.foldl queueSignal initialSignalQueue).mask.testBit j =
        decide (j < 6 ∧ (j : Int) ∈ qs) := by
    intro j
    rw [foldl_queueSignal_testBit qs initialSignalQueue j]
    simp [initialSignalQueue, Nat.zero_testBit]
  have hlb : FirstLB (qs.foldl queueSignal initialSignalQueue) :=
    foldl_queueSignal_firstLB qs initialSignalQueue
      (by intro hc; exact absurd rfl hc)
  unfold emitQueuedSignals
  by_cases hm : (qs.foldl queueSignal initialSignalQueue).mask ≠ 0
  · rw [if_pos hm]
    obtain ⟨h0, hbound⟩ := hlb hm
    constructor
    · exact emitLoop_chain _ _ _ h0
    · intro n
      rw [emitLoop_mem _ _ _ h0 (Int.self_le_toNat _) n]
      constructor
      · rintro ⟨_, h2, h3⟩
        rw [hchar] at h3
        exact ⟨h2, (of_decide_eq_true h3).2⟩
      · rintro ⟨h2, h3⟩
        have hbit : (qs.foldl queueSignal initialSignalQueue).mask.testBit n = true := by
          rw [hchar]
          exact decide_eq_true ⟨h2, h3⟩
        exact ⟨hbound n hbit, h2, hbit⟩
  · rw [if_neg hm]
    push_neg at hm
    constructor
    · simp
    · intro n
      simp only [List.not_mem_nil, false_iff]
      rintro ⟨h2, h3⟩
      have hzero := hchar n
      rw [hm, Nat.zero_testBit] at hzero
      have hdec : decide (n < 6 ∧ (n : Int) ∈ qs) = true := decide_eq_true ⟨h2, h3⟩
      rw [hdec] at hzero
      exact Bool.false_ne_true hzero

/-- In the remaining-files pass the thumbnail path is empty, so
`decryptFile` degenerates to `decryptImage` alone. -/
theorem decryptFileT_empty_thumb (dec : String → Option FoilMsgModel)
    (wt : String → String) (thumbSize : Int × Int) (f : String) :
    decryptFileT dec wt thumbSize f "" = decryptImageT dec wt f := by
  unfold decryptFileT decryptThumbT decryptAndVerifyO
  simp [String.isEmpty]

/-- Characterisation of the remaining-files pass: it appends exactly the
entries `decryptImage` produces for the remaining files, and sets
`iSaveInfo` iff it was already set or some remaining file yields an
entry. -/
theorem remainingPass_eq (dec : String → Option FoilMsgModel)
    (wt : String → String) (thumbSize : Int × Int) :
    ∀ (files : List String) (entries : List ModelData) (saveInfo : Bool),
      remainingPass dec wt thumbSize files entries saveInfo =
        (entries ++ files.filterMap (decryptImageT dec wt),
         saveInfo || files.any (fun f => (decryptImageT dec wt f).isSome)) := by
  intro files
  induction files with
  | nil =>
    intro entries saveInfo
    simp [remainingPass]
  | cons f rest ih =>
    intro entries saveInfo
    simp only [remainingPass, List.foldl_cons] at ih ⊢
    rw [decryptFileT_empty_thumb dec wt thumbSize f]
    cases h : decryptImageT dec wt f with
    | none =>
      rw [ih entries saveInfo]
      simp [List.filterMap_cons, h]
    | some d =>
      rw [ih (entries ++ [d]) true]
      simp [List.filterMap_cons, h]

/-- C4 counterexample: with an empty recorded order and a single file
`"AA"` that fails to decrypt, the file is outside the recorded order yet
`performTask` finishes with `iSaveInfo = false` — the order file would
not be rewritten, contradicting the claim that `save_info` is marked
whenever files outside the recorded order are present. -/
theorem c4_saveinfo_counterexample :
    (orderedPass (fun _ => none) (fun _ => "") (32, 32) [] []
        ⟨["AA"], [], false⟩).fileMap = ["AA"] ∧
    (decryptPicsPerformTask (fun _ => none) (fun _ => "") (32, 32)
        ["AA"] [] []).2 = false := by
  constructor
  · rfl
  · rfl

/-- C4 amended: after the ordered pass, every file remaining in the file
map is processed with an empty thumbnail path — hence by `decryptImage`
only (`decryptFileT_empty_thumb`) — and `iSaveInfo` is set iff the
ordered pass already set it or at least one remaining file successfully
yields an entry; a remaining file that fails to decrypt does not set
it. -/
theorem c4_remaining_pass_amended (dec : String → Option FoilMsgModel)
    (wt : String → String) (thumbSize : Int × Int)
    (files order : List String) (thumbMap : List (String × String)) :
    decryptPicsPerformTask dec wt thumbSize files order thumbMap =
      ((orderedPass dec wt thumbSize thumbMap order
          ⟨files, [], false⟩).entries ++
        (orderedPass dec wt thumbSize thumbMap order
          ⟨files, [], false⟩).fileMap.filterMap (decryptImageT dec wt),
       (orderedPass dec wt thumbSize thumbMap order
          ⟨files, [], false⟩).saveInfo ||
        (orderedPass dec wt thumbSize thumbMap order
          ⟨files, [], false⟩).fileMap.any
            (fun f => (decryptImageT dec wt f).isSome)) := by
  unfold decryptPicsPerformTask
  exact remainingPass_eq dec wt thumbSize _ _ _

/-- `strip` leaves a list untouched when neither end is ASCII
whitespace. -/
theorem strip_eq_self (l : List Char) (hlead : noLeadSpace l = true)
    (htrail : noTrailSpace l = true) : strip l = l := by
  have h1 : l.dropWhile gAsciiSpace = l := by
    cases l with
    | nil => rfl
    | cons c rest =>
      have hc : gAsciiSpace c = false := by
        simp only [noLeadSpace, List.head?_cons] at hlead
        simpa using hlead
      rw [List.dropWhile_cons, hc]
      simp
  have h2 : l.reverse.dropWhile gAsciiSpace = l.reverse := by
    cases hrev : l.reverse with
    | nil => rfl
    | cons c rest =>
      have hhead : l.getLast? = some c := by
        rw [← List.head?_reverse, hrev, List.head?_cons]
      have hc : gAsciiSpace c = false := by
        simp only [noTrailSpace, hhead] at htrail
        simpa using htrail
      rw [List.dropWhile_cons, hc]
      simp
  rw [strip, h1, h2, List.reverse_reverse]

/-- `splitFirstColon` finds nothing in a colon-free list. -/
theorem splitFirstColon_of_not_mem (l : List Char) (h : ':' ∉ l) :
    splitFirstColon l = none := by
  induction l with
  | nil => rfl
  | cons c rest ih =>
    have hc : ¬c = ':' := by
      intro hcc
      exact h (hcc ▸ List.mem_cons_self c rest)
    have hrest : ':' ∉ rest := fun hr => h (List.mem_cons_of_mem c hr)
    rw [splitFirstColon, if_neg hc, ih hrest]

/-- `splitFirstColon` splits at an inserted colon when the prefix is
colon-free. -/
theorem splitFirstColon_append (a b : List Char) (h : ':' ∉ a) :
    splitFirstColon (a ++ ':' :: b) = some (a, b) := by
  induction a with
  | nil => simp [splitFirstColon]
  | cons c rest ih =>
    have hc : ¬c = ':' := by
      intro hcc
      exact h (hcc ▸ List.mem_cons_self c rest)
    have hrest : ':' ∉ rest := fun hr => h (List.mem_cons_of_mem c hr)
    rw [List.cons_append, splitFirstColon, if_neg hc, ih hrest]

/-- Replacing the value at a present key makes lookup return it. -/
theorem lookupA_replace (m : List (List Char × List Char)) (k v : List Char)
    (h : (lookupA m k).isSome = true) :
    lookupA (m.map (fun p => if p.1 = k then (k, v) else p)) k = some v := by
  induction m with
  | nil => simp [lookupA] at h
  | cons p rest ih =>
    by_cases hp : p.1 = k
    · simp [List.map_cons, if_pos hp, lookupA]
    · rw [lookupA, if_neg hp] at h
      simp only [List.map_cons, if_neg hp, lookupA, if_neg hp]
      exact ih h

/-- Lookup after appending a fresh key. -/
theorem lookupA_append_fresh (m : List (List Char × List Char))
    (k v : List Char) (h : (lookupA m k).isSome = false) :
    lookupA (m ++ [(k, v)]) k = some v := by
  induction m with
  | nil => simp [lookupA]
  | cons p rest ih =>
    by_cases hp : p.1 = k
    · rw [lookupA, if_pos hp] at h
      simp at h
    · rw [lookupA, if_neg hp] at h
      rw [List.cons_append, lookupA, if_neg hp]
      exact ih h

/-- `qhashInsert` makes the inserted key map to the inserted value. -/
theorem lookupA_qhashInsert_self (m : List (List Char × List Char))
    (k v : List Char) : lookupA (qhashInsert m k v) k = some v := by
  unfold qhashInsert
  by_cases h : (lookupA m k).isSome = true
  · rw [if_pos h]
    exact lookupA_replace m k v h
  · rw [if_neg h]
    exact lookupA_append_fresh m k v (by simpa using h)

/-- `qhashInsert` does not affect other keys. -/
theorem lookupA_qhashInsert_ne (m : List (List Char × List Char))
    (k v s : List Char) (hs : s ≠ k) :
    lookupA (qhashInsert m k v) s = lookupA m s := by
  have hks : ¬(k = s) := fun hc => hs hc.symm
  unfold qhashInsert
  by_cases h : (lookupA m k).isSome = true
  · rw [if_pos h]
    clear h
    induction m with
    | nil => rfl
    | cons p rest ih =>
      simp only [List.map_cons]
      by_cases hp : p.1 = k
      · have hps : ¬(p.1 = s) := by
          rw [hp]
          exact hks
        simp only [if_pos hp, lookupA, if_neg hks, if_neg hps]
        exact ih
      · simp only [if_neg hp, lookupA]
        by_cases hps : p.1 = s
        · rw [if_pos hps, if_pos hps]
        · rw [if_neg hps, if_neg hps]
          exact ih
  · rw [if_neg h]
    clear h
    induction m with
    | nil => simp [lookupA, hks]
    | cons p rest ih =>
      simp only [List.cons_append, lookupA]
      by_cases hps : p.1 = s
      · rw [if_pos hps, if_pos hps]
      · rw [if_neg hps, if_neg hps]
        exact ih

/-- `encodeToken` expressed through the effective mapping `thumbOf`. -/
theorem encodeToken_eq (info : OrderInfo) (img : List Char) :
    encodeToken info img =
      img ++ (match thumbOf info img with
              | some t => ':' :: t
              | none => []) := by
  by_cases hv : thumbValue info img = []
  · simp [encodeToken, thumbOf, hv]
  · simp [encodeToken, thumbOf, hv]

/-- A token of a non-empty image name is non-empty. -/
theorem encodeToken_ne_nil (info : OrderInfo) (img : List Char)
    (h : img ≠ []) : encodeToken info img ≠ [] := by
  rw [encodeToken_eq]
  simp [h]

/-- A token contains no comma when neither the image name nor the mapped
thumbnail name does. -/
theorem comma_not_mem_encodeToken (info : OrderInfo) (img : List Char)
    (himg : ',' ∉ img)
    (ht : ∀ t, thumbOf info img = some t → ',' ∉ t) :
    ',' ∉ encodeToken info img := by
  rw [encodeToken_eq]
  intro hmem
  rcases List.mem_append.mp hmem with h | h
  · exact himg h
  · cases hto : thumbOf info img with
    | none =>
      rw [hto] at h
      simp at h
    | some t =>
      rw [hto] at h
      rcases List.mem_cons.mp h with hcol | h
      · exact absurd hcol (by decide)
      · exact ht t hto h

/-- `noLeadSpace` only looks at the first part of an append. -/
theorem noLeadSpace_append (a b : List Char) (ha : a ≠ []) :
    noLeadSpace (a ++ b) = noLeadSpace a := by
  unfold noLeadSpace
  rw [List.head?_append_of_ne_nil a ha]

/-- `noTrailSpace` only looks at the second part of an append. -/
theorem noTrailSpace_append (a b : List Char) (hb : b ≠ []) :
    noTrailSpace (a ++ b) = noTrailSpace b := by
  unfold noTrailSpace
  rw [List.getLast?_append_of_ne_nil a hb]

/-- Decoding one encoded token appends the image name to the order and
inserts its thumbnail mapping (when present): `g_strstrip` leaves the
token alone and the first colon is exactly the inserted separator. -/
theorem decodeStep_encodeToken (info : OrderInfo) (img : List Char)
    (hleg : RoundTripLegal info img) (st : OrderInfo) :
    decodeStep st (encodeToken info img) =
      (match thumbOf info img with
       | some t => { order := st.order ++ [img],
                     thumbMap := qhashInsert st.thumbMap img t }
       | none => { order := st.order ++ [img], thumbMap := st.thumbMap }) := by
  obtain ⟨⟨hne, hcomma, hcolon⟩, hlead, hmatch⟩ := hleg
  cases hto : thumbOf info img with
  | none =>
    rw [hto] at hmatch
    have htok : encodeToken info img = img := by
      rw [encodeToken_eq, hto]
      simp
    have hstrip : strip img = img := strip_eq_self img hlead hmatch
    rw [htok]
    unfold decodeStep
    rw [hstrip, if_pos hne, splitFirstColon_of_not_mem img hcolon]
  | some t =>
    rw [hto] at hmatch
    obtain ⟨⟨htne, htcomma, htcolon⟩, httrail⟩ := hmatch
    have htok : encodeToken info img = img ++ ':' :: t := by
      rw [encodeToken_eq, hto]
    have htokne : img ++ ':' :: t ≠ [] := by simp
    have hstrip : strip (img ++ ':' :: t) = img ++ ':' :: t := by
      apply strip_eq_self
      · rw [noLeadSpace_append _ _ hne]
        exact hlead
      · rw [noTrailSpace_append _ _ (by simp)]
        have : (':' :: t) = [':'] ++ t := rfl
        rw [this, noTrailSpace_append [':'] t htne]
        exact httrail
    rw [htok]
    unfold decodeStep
    rw [hstrip, if_pos htokne, splitFirstColon_append img t hcolon]

/-- `[','].intercalate` in head-tail form. -/
theorem intercalate_comma (t : List Char) (ts : List (List Char)) :
    [','].intercalate (t :: ts) = t ++ (ts.map (fun x => ',' :: x)).flatten := by
  induction ts generalizing t with
  | nil => simp [List.intercalate]
  | cons u us ih =>
    have h1 : [','].intercalate (t :: u :: us) =
        t ++ [','] ++ [','].intercalate (u :: us) := by
      simp [List.intercalate, List.intersperse_cons_cons, List.append_assoc]
    rw [h1, ih u]
    simp [List.append_assoc]

/-- The saving fold with a non-empty buffer appends comma-prefixed
tokens. -/
theorem encode_foldl_ne_nil (info : OrderInfo) :
    ∀ (l : List (List Char)) (b : List Char), b ≠ [] →
      l.foldl (fun buf img =>
        (if buf ≠ [] then buf ++ [','] else buf) ++ encodeToken info img) b =
      b ++ (l.map (fun x => ',' :: encodeToken info x)).flatten := by
  intro l
  induction l with
  | nil => intro b _; simp
  | cons x xs ih =>
    intro b hb
    rw [List.foldl_cons]
    have hstep : (if b ≠ [] then b ++ [','] else b) ++ encodeToken info x
        = b ++ (',' :: encodeToken info x) := by
      rw [if_pos hb]
      simp [List.append_assoc]
    rw [hstep, ih _ (by simp)]
    simp [List.append_assoc]

/-- `ModelInfo::save` produces exactly the comma-intercalated token
list. -/
theorem encodeOrderHeader_eq_intercalate (info : OrderInfo)
    (h : ∀ img ∈ info.order, img ≠ []) :
    encodeOrderHeader info =
      [','].intercalate (info.order.map (encodeToken info)) := by
  unfold encodeOrderHeader
  rcases horder : info.order with _ | ⟨x, xs⟩
  · simp [List.intercalate]
  · rw [List.foldl_cons]
    have hx : encodeToken info x ≠ [] :=
      encodeToken_ne_nil info x (h x (by rw [horder]; exact List.mem_cons_self x xs))
    have hfirst : (if ([] : List Char) ≠ [] then [] ++ [','] else []) ++
        encodeToken info x = encodeToken info x := by
      simp
    rw [hfirst, encode_foldl_ne_nil info xs _ hx, List.map_cons,
      intercalate_comma, List.map_map]
    rfl

/-- Decoding a list of encoded tokens: the order is appended verbatim
and each image with a mapped thumbnail ends up mapped to it. -/
theorem decode_foldl_spec (info : OrderInfo)
    (hleg : ∀ img ∈ info.order, RoundTripLegal info img) :
    ∀ xs : List (List Char), (∀ i ∈ xs, i ∈ info.order) →
      ∀ st : OrderInfo,
      ((xs.map (encodeToken info)).foldl decodeStep st).order =
          st.order ++ xs ∧
      ∀ s : List Char,
        lookupA ((xs.map (encodeToken info)).foldl decodeStep st).thumbMap s =
          (if s ∈ xs ∧ (thumbOf info s).isSome then thumbOf info s
           else lookupA st.thumbMap s) := by
  intro xs
  induction xs with
  | nil =>
    intro _ st
    constructor
    · simp
    · intro s
      simp
  | cons x rest ih =>
    intro hmem st
    have hx : x ∈ info.order := hmem x (List.mem_cons_self x rest)
    have hrest : ∀ i ∈ rest, i ∈ info.order :=
      fun i hi => hmem i (List.mem_cons_of_mem x hi)
    rw [List.map_cons, List.foldl_cons,
      decodeStep_encodeToken info x (hleg x hx) st]
    cases hto : thumbOf info x with
    | none =>
      obtain ⟨hord, hmap⟩ := ih hrest
        { order := st.order ++ [x], thumbMap := st.thumbMap }
      constructor
      · rw [hord]
        simp
      · intro s
        rw [hmap s]
        by_cases hsr : s ∈ rest ∧ (thumbOf info s).isSome
        · rw [if_pos hsr, if_pos ⟨List.mem_cons_of_mem x hsr.1, hsr.2⟩]
        · rw [if_neg hsr]
          by_cases hsx : s ∈ x :: rest ∧ (thumbOf info s).isSome
          · rcases List.mem_cons.mp hsx.1 with rfl | hsr2
            · rw [hto] at hsx
              simp at hsx
            · exact absurd ⟨hsr2, hsx.2⟩ hsr
          · rw [if_neg hsx]
    | some t =>
      obtain ⟨hord, hmap⟩ := ih hrest
        { order := st.order ++ [x], thumbMap := qhashInsert st.thumbMap x t }
      constructor
      · rw [hord]
        simp
      · intro s
        rw [hmap s]
        by_cases hsr : s ∈ rest ∧ (thumbOf info s).isSome
        · rw [if_pos hsr, if_pos ⟨List.mem_cons_of_mem x hsr.1, hsr.2⟩]
        · rw [if_neg hsr]
          by_cases hsxeq : s = x
          · subst hsxeq
            rw [lookupA_qhashInsert_self st.thumbMap s t]
            rw [if_pos ⟨List.mem_cons_self s rest, by rw [hto]; rfl⟩, hto]
          · rw [lookupA_qhashInsert_ne st.thumbMap x t s hsxeq]
            by_cases hsx : s ∈ x :: rest ∧ (thumbOf info s).isSome
            · rcases List.mem_cons.mp hsx.1 with rfl | hsr2
              · exact absurd rfl hsxeq
              · exact absurd ⟨hsr2, hsx.2⟩ hsr
            · rw [if_neg hsx]

/-- C6 counterexample: the name `" A"` (a leading space) is legal by the
claim's definition — non-empty, no comma, no colon — yet
`decode(encode([" A"]))` yields the order `["A"]`: `g_strstrip` removes
the space, so the round-trip fails for the claim's notion of legality. -/
theorem c6_whitespace_counterexample :
    ([' ', 'A'] ≠ ([] : List Char) ∧ ',' ∉ [' ', 'A'] ∧ ':' ∉ [' ', 'A']) ∧
    (decodeOrderHeader (encodeOrderHeader ⟨[[' ', 'A']], []⟩)).order ≠
      [[' ', 'A']] := by
  constructor
  · refine ⟨by decide, by decide, by decide⟩
  · decide

/-- C6 amended: the round-trip `decode(encode(order)) = order` holds for
every legal order list — non-empty names with no comma or colon, at most
one thumbnail per image — that additionally satisfies the whitespace
side-conditions forced by `g_strstrip` (image names do not start, and
trailing names do not end, with ASCII whitespace; see
`RoundTripLegal`): decoding recovers the same ordered image list and the
same effective image→thumbnail mapping. -/
theorem c6_order_roundtrip_amended (info : OrderInfo)
    (hleg : ∀ img ∈ info.order, RoundTripLegal info img) :
    (decodeOrderHeader (encodeOrderHeader info)).order = info.order ∧
    ∀ img ∈ info.order,
      thumbOf (decodeOrderHeader (encodeOrderHeader info)) img =
        thumbOf info img := by
  by_cases horder : info.order = []
  · have hempty : encodeOrderHeader info = [] := by
      unfold encodeOrderHeader
      rw [horder]
      rfl
    rw [hempty]
    constructor
    · rw [horder]
      rfl
    · intro img hmem
      rw [horder] at hmem
      simp at hmem
  · have hne : ∀ img ∈ info.order, img ≠ [] :=
      fun img hi => (hleg img hi).1.1
    have hsplit : (encodeOrderHeader info).splitOn ',' =
        info.order.map (encodeToken info) := by
      rw [encodeOrderHeader_eq_intercalate info hne]
      apply List.splitOn_intercalate
      · intro l hl
        obtain ⟨img, himg, rfl⟩ := List.mem_map.mp hl
        exact comma_not_mem_encodeToken info img (hleg img himg).1.2.1
          (fun t hto => by
            have hm := (hleg img himg).2.2
            rw [hto] at hm
            exact hm.1.2.1)
      · intro hc
        exact horder (by simpa using hc)
    have hfold := decode_foldl_spec info hleg info.order
      (fun i hi => hi) ⟨[], []⟩
    constructor
    · rw [decodeOrderHeader, hsplit, hfold.1]
      rfl
    · intro img hmem
      rw [decodeOrderHeader, hsplit]
      have hlk := hfold.2 img
      cases hto : thumbOf info img with
      | none =>
        rw [hto] at hlk
        simp [lookupA] at hlk
        unfold thumbOf thumbValue
        rw [hlk]
        rfl
      | some t =>
        rw [hto] at hlk
        rw [if_pos ⟨hmem, rfl⟩] at hlk
        have htne : t ≠ [] := by
          have hm := (hleg img hmem).2.2
          rw [hto] at hm
          exact hm.1.1
        unfold thumbOf thumbValue
        rw [hlk]
        simp [htne]

/-- C6 witness: the two-image order `["A", "B"]` with thumbnail mapping
`B ↦ "C"` satisfies the legality conditions and round-trips. -/
theorem c6_order_roundtrip_witness :
    (∀ img ∈ (⟨[['A'], ['B']], [(['B'], ['C'])]⟩ : OrderInfo).order,
      RoundTripLegal ⟨[['A'], ['B']], [(['B'], ['C'])]⟩ img) ∧
    (decodeOrderHeader (encodeOrderHeader
        ⟨[['A'], ['B']], [(['B'], ['C'])]⟩)).order = [['A'], ['B']] ∧
    thumbOf (decodeOrderHeader (encodeOrderHeader
        ⟨[['A'], ['B']], [(['B'], ['C'])]⟩)) ['B'] = some ['C'] := by
  have hleg : ∀ img ∈ (⟨[['A'], ['B']], [(['B'], ['C'])]⟩ : OrderInfo).order,
      RoundTripLegal ⟨[['A'], ['B']], [(['B'], ['C'])]⟩ img := by
    intro img hmem
    rcases List.mem_cons.mp hmem with rfl | hmem
    · refine ⟨⟨by decide, by decide, by decide⟩, by decide, ?_⟩
      have hto : thumbOf (⟨[['A'], ['B']], [(['B'], ['C'])]⟩ : OrderInfo)
          ['A'] = none := by decide
      simp only [hto]
      decide
    · rcases List.mem_cons.mp hmem with rfl | hmem
      · refine ⟨⟨by decide, by decide, by decide⟩, by decide, ?_⟩
        have hto : thumbOf (⟨[['A'], ['B']], [(['B'], ['C'])]⟩ : OrderInfo)
            ['B'] = some ['C'] := by decide
        simp only [hto]
        exact ⟨⟨by decide, by decide, by decide⟩, by decide⟩
      · simp at hmem
  have hmain := c6_order_roundtrip_amended
    ⟨[['A'], ['B']], [(['B'], ['C'])]⟩ hleg
  refine ⟨hleg, hmain.1, ?_⟩
  have := hmain.2 ['B'] (by decide)
  rw [this]
  decide

end FoilPics
